import Mathlib

/-!
Verification of the k-mer frequency counter in `scripts/count_kmers.py`
(repository `qiyunlab/binarena`).

The Python core consists of two functions:

* `list_kmers(chars, k, n)` — enumerates all `n = 4^k` k-mer strings in
  index order (the "Universe Generator");
* `count_kmers(seq, k, n, tobit)` — a single left-to-right pass over the
  sequence maintaining a forward rolling code `fwd`, a reverse-complement
  rolling code `rev` and a valid-run counter `m`, incrementing two entries
  of a length-`n` frequency array per complete window (the "Rolling
  Counter").

Python strings are modelled as `List Char` / `String`; Python's
arbitrary-precision non-negative intermediate values as `Nat`; values that
may be `-1` (the result of `str.find`) as `Int`.  Python operations that
can raise (`list` indexing out of range, shifting by a negative amount)
are modelled in the `Option` monad: `none` is an uncaught exception.
-/

/-- `'ACGT'.find c` from the Python source (`tobit = chars.find` in
`main`): the index of `c` in `"ACGT"`, or `-1` when `c` does not occur. -/
def tobit (c : Char) : Int :=
  if c = 'A' then 0
  else if c = 'C' then 1
  else if c = 'G' then 2
  else if c = 'T' then 3
  else -1

/-- The inner loop of Python `list_kmers`: `kmer = chars[idx & 4 - 1] + kmer;
idx >>= 2`, repeated `k` times starting from accumulator `acc`.
(`idx & 4 - 1` parses as `idx & 3` in Python.)  `chars[j]` is modelled by
`getD` — for the call sites in the program `j < 4 = chars.length` always
holds, so the default is never consulted. -/
def kmerLoop (cs : List Char) : Nat → Nat → List Char → List Char
  | 0, _, acc => acc
  | j + 1, idx, acc => kmerLoop cs j (idx >>> 2) (cs.getD (idx &&& (4 - 1)) 'A' :: acc)

/-- Python `list_kmers(chars, k, n)`: `res = [''] * n; for i in range(n):
res[i] = <kmer built by the inner loop>`. -/
def list_kmers (cs : List Char) (k n : Nat) : List (List Char) :=
  (List.range n).map (fun i => kmerLoop cs k i [])

/-- The mutable state of the `count_kmers` loop: forward rolling code,
reverse-complement rolling code, number of characters in the current
(incomplete) k-mer, and the result array. -/
structure KState where
  fwd : Nat
  rev : Nat
  m : Nat
  res : List Nat
  deriving Repr, DecidableEq

/-- Python `res[i] += 1`: fails (raises `IndexError`) when `i` is out of
range.  (`i` is a `Nat` here because both indices of the program are
built from non-negative arithmetic.) -/
def bump (res : List Nat) (i : Nat) : Option (List Nat) :=
  if i < res.length then some (res.set i (res.getD i 0 + 1)) else none

/-- One iteration of the `for bit in map(tobit, seq)` loop of Python
`count_kmers`, with `q = (k - 1) * 2` and `x = (1 << q) - 1` precomputed.
The three branches are, in source order: invalid character (reset),
complete window sliding forward, incomplete window gaining a character. -/
def step (k q x : Nat) (s : KState) (bit : Int) : Option KState :=
  if bit = -1 then
    some ⟨0, 0, 0, s.res⟩
  else if s.m = k then
    let fwd := ((s.fwd &&& x) <<< 2) + bit.toNat
    let rev := (s.rev >>> 2) + ((3 - bit).toNat <<< q)
    match bump s.res fwd with
    | none => none
    | some r1 =>
      match bump r1 rev with
      | none => none
      | some r2 => some ⟨fwd, rev, s.m, r2⟩
  else
    let fwd := bit.toNat + (s.fwd <<< 2)
    let rev := s.rev + ((3 - bit).toNat <<< (2 * s.m))
    let m := s.m + 1
    if m = k then
      match bump s.res fwd with
      | none => none
      | some r1 =>
        match bump r1 rev with
        | none => none
        | some r2 => some ⟨fwd, rev, m, r2⟩
    else
      some ⟨fwd, rev, m, s.res⟩

/-- Python `count_kmers(seq, k, n, tobit)`.  `k` is an `Int` because it
comes from the command line (`argparse`, `type=int`) unvalidated.  The
initial `x = (1 << q) - 1` raises `ValueError: negative shift count`
whenever `q = (k - 1) * 2 < 0`, i.e. whenever `k < 1`; this is modelled
by the leading `none` branch.  For `q ≥ 0` the loop `for bit in
map(tobit, seq)` is a monadic fold of `step` over the character codes. -/
def count_kmers (seq : String) (k : Int) (n : Nat) (tob : Char → Int) :
    Option (List Nat) :=
  if (k - 1) * 2 < 0 then none
  else
    let q := ((k - 1) * 2).toNat
    let x := (1 <<< q) - 1
    ((seq.data.map tob).foldlM (step k.toNat q x)
        ⟨0, 0, 0, List.replicate n 0⟩).map KState.res

/-! ### Window-level description of the rolling counter

`enc` is the 2-bit big-endian code of a base-code list; `rc l` is the
list of codes of the reverse complement of `l`; `lastk k l` is the list
of the last `k` elements of `l`.  `curRunFrom r bits` is the run of
valid base codes accumulated after processing `bits` starting from the
run `r`; `winsFrom k r bits` is the list of complete k-windows finished
while processing `bits`.  `applyWins` replays the two array increments
of each window. -/

def enc (l : List Nat) : Nat := l.foldl (fun a b => 4 * a + b) 0

def rc (l : List Nat) : List Nat := l.reverse.map (fun b => 3 - b)

def lastk (k : Nat) (l : List Nat) : List Nat := l.drop (l.length - k)

def curRunFrom (r : List Nat) : List Int → List Nat
  | [] => r
  | b :: bs => if b = -1 then curRunFrom [] bs else curRunFrom (r ++ [b.toNat]) bs

def winsFrom (k : Nat) (r : List Nat) : List Int → List (List Nat)
  | [] => []
  | b :: bs =>
    if b = -1 then winsFrom k [] bs
    else
      (if k ≤ r.length + 1 then [lastk k (r ++ [b.toNat])] else []) ++
        winsFrom k (r ++ [b.toNat]) bs

/-- Total version of `bump`, used to describe the result array (all uses
are at indices proved in range, where it agrees with `bump`). -/
def bumpT (res : List Nat) (i : Nat) : List Nat := res.set i (res.getD i 0 + 1)

def applyWins (ws : List (List Nat)) (res : List Nat) : List Nat :=
  ws.foldl (fun acc w => bumpT (bumpT acc (enc w)) (enc (rc w))) res

/-- How many of the two increments of each window of `ws` land on
index `i`. -/
def tally (ws : List (List Nat)) (i : Nat) : Nat :=
  ws.countP (fun w => enc w == i) + ws.countP (fun w => enc (rc w) == i)


/-- Structural (non-accumulator) form of the `list_kmers` inner loop:
the digit characters of `idx`, most significant 2-bit group first. -/
def kmerDigits (cs : List Char) : Nat → Nat → List Char
  | 0, _ => []
  | j + 1, idx => kmerDigits cs j (idx >>> 2) ++ [cs.getD (idx &&& 3) 'A']

/-- Stated from the spec's words (for comparison with `list_kmers`): the
string at index `i` is obtained by reading `i`'s 2-bit groups, most
significant group first, through the mapping 0→A, 1→C, 2→G, 3→T. -/
def specKmer : Nat → Nat → List Char
  | 0, _ => []
  | j + 1, i => specKmer j (i / 4) ++ [['A', 'C', 'G', 'T'].getD (i % 4) 'A']

/-- Complement of a base character (A↔T, C↔G), as used in the statement
of the reverse-complement claim; characters that are not bases are left
unchanged. -/
def compChar (c : Char) : Char :=
  if c = 'A' then 'T'
  else if c = 'T' then 'A'
  else if c = 'C' then 'G'
  else if c = 'G' then 'C'
  else c

/-- Reverse complement of a sequence: reverse the string and complement
each base. -/
def revcomp (s : String) : String := String.mk ((s.data.map compChar).reverse)

/-- The effect of `compChar` on character codes: valid codes are
complemented (`3 - b`), the invalid sentinel stays `-1`. -/
def cbit (b : Int) : Int := if b = -1 then -1 else 3 - b

/-- The code list of the reverse complement of a sequence whose code
list is `l`. -/
def rcBits (l : List Int) : List Int := (l.map cbit).reverse

/-- Splits a code list into its maximal runs of valid codes (as `Nat`
lists), starting from an already-accumulated run `cur`; boundary runs
may be empty. -/
def segsAux (cur : List Nat) : List Int → List (List Nat)
  | [] => [cur]
  | b :: bs => if b = -1 then cur :: segsAux [] bs else segsAux (cur ++ [b.toNat]) bs

def segs (l : List Int) : List (List Nat) := segsAux [] l

/-- All length-`k` windows of a single valid run, in position order. -/
def runWins (k : Nat) (l : List Nat) : List (List Nat) :=
  (List.range (l.length + 1 - k)).map (fun i => (l.drop i).take k)

/-- The loop state of `count_kmers` after its first `j` iterations on
`seq`, for word length `k` (with `q` and `x` exactly as `count_kmers`
computes them for `k ≥ 1`). -/
def countState (seq : String) (k j : Nat) : Option KState :=
  ((seq.data.map tobit).take j).foldlM
    (step k ((k - 1) * 2) ((1 <<< ((k - 1) * 2)) - 1))
    ⟨0, 0, 0, List.replicate (4 ^ k) 0⟩

/-- Model of the residue normalisation done by the reader in `main`
(`seq += line.rstrip().upper()`): each character is upper-cased before
the core ever sees it. -/
def upperStr (s : String) : String := String.mk (s.data.map Char.toUpper)

-- Sanity checks reproducing the unit tests embedded in the Python file.
example : list_kmers "ACGT".data 2 16 =
    ["AA".data, "AC".data, "AG".data, "AT".data,
     "CA".data, "CC".data, "CG".data, "CT".data,
     "GA".data, "GC".data, "GG".data, "GT".data,
     "TA".data, "TC".data, "TG".data, "TT".data] := by decide

example : count_kmers "ACGT" 2 16 tobit =
    some [0, 2, 0, 0, 0, 0, 2, 0, 0, 0, 0, 2, 0, 0, 0, 0] := by decide

example : count_kmers "GCACTA" 2 16 tobit =
    some [0, 1, 1, 0, 1, 0, 0, 1, 0, 2, 0, 1, 2, 0, 1, 0] := by decide

example : count_kmers "CCAGCTGCGTAACCGAGAAACTACGTCT" 3 64 tobit =
    some [1, 2, 0, 0, 0, 1, 3, 1, 2, 2, 0, 1, 0, 0, 0, 0,
          0, 0, 2, 0, 1, 0, 1, 0, 1, 1, 1, 3, 1, 1, 2, 0,
          1, 1, 1, 0, 1, 0, 1, 2, 0, 0, 0, 1, 2, 1, 0, 2,
          1, 2, 1, 0, 0, 0, 1, 2, 0, 1, 1, 0, 1, 1, 0, 1] := by decide

/-! ### Arithmetic lemmas about `enc` -/

theorem enc_foldl (l : List Nat) :
    ∀ a : Nat, l.foldl (fun a b => 4 * a + b) a = a * 4 ^ l.length + enc l := by
  induction l with
  | nil => intro a; simp [enc]
  | cons b l ih =>
    intro a
    show l.foldl _ (4 * a + b) = _
    rw [ih (4 * a + b)]
    have : enc (b :: l) = b * 4 ^ l.length + enc l := by
      show l.foldl _ (4 * 0 + b) = _
      rw [ih (4 * 0 + b)]; ring
    rw [this]; simp [List.length_cons, pow_succ]; ring

theorem enc_cons (b : Nat) (l : List Nat) :
    enc (b :: l) = b * 4 ^ l.length + enc l := by
  show l.foldl _ (4 * 0 + b) = _
  rw [enc_foldl]; ring

theorem enc_append_singleton (l : List Nat) (b : Nat) :
    enc (l ++ [b]) = 4 * enc l + b := by
  unfold enc
  rw [List.foldl_append]
  rfl

theorem enc_lt (l : List Nat) (h : ∀ x ∈ l, x ≤ 3) : enc l < 4 ^ l.length := by
  induction l with
  | nil => simp [enc]
  | cons b l ih =>
    rw [enc_cons]
    have hb : b ≤ 3 := h b (by simp)
    have hl : enc l < 4 ^ l.length := ih (fun x hx => h x (by simp [hx]))
    calc b * 4 ^ l.length + enc l < b * 4 ^ l.length + 4 ^ l.length := by omega
      _ = (b + 1) * 4 ^ l.length := by ring
      _ ≤ 4 * 4 ^ l.length := by
          have : b + 1 ≤ 4 := by omega
          exact Nat.mul_le_mul_right _ this
      _ = 4 ^ (b :: l).length := by rw [List.length_cons]; ring

theorem enc_mod (w : Nat) (l : List Nat) (h : ∀ x ∈ l, x ≤ 3) :
    enc (w :: l) % 4 ^ l.length = enc l := by
  rw [enc_cons, Nat.mul_comm, Nat.mul_add_mod, Nat.mod_eq_of_lt (enc_lt l h)]

theorem enc_div (l : List Nat) (b : Nat) (hb : b ≤ 3) :
    enc (l ++ [b]) / 4 = enc l := by
  rw [enc_append_singleton]
  omega

/-! ### Lemmas about `rc` and `lastk` -/

theorem rc_nil : rc [] = [] := rfl

theorem rc_append_singleton (l : List Nat) (b : Nat) :
    rc (l ++ [b]) = (3 - b) :: rc l := by
  simp [rc]

theorem rc_cons (b : Nat) (l : List Nat) : rc (b :: l) = rc l ++ [3 - b] := by
  simp [rc]

theorem length_rc (l : List Nat) : (rc l).length = l.length := by simp [rc]

theorem mem_rc_le (l : List Nat) : ∀ x ∈ rc l, x ≤ 3 := by
  intro x hx
  simp only [rc, List.mem_map, List.mem_reverse] at hx
  obtain ⟨b, _, rfl⟩ := hx
  omega

theorem rc_rc (l : List Nat) (h : ∀ x ∈ l, x ≤ 3) : rc (rc l) = l := by
  simp only [rc, List.map_reverse, List.reverse_reverse, List.map_map]
  have : ∀ x ∈ l, ((fun b => 3 - b) ∘ fun b => 3 - b) x = id x := by
    intro x hx
    have := h x hx
    simp only [Function.comp_apply, id_eq]
    omega
  rw [List.map_congr_left this, List.map_id]

theorem lastk_of_le (k : Nat) (l : List Nat) (h : l.length ≤ k) :
    lastk k l = l := by
  unfold lastk
  rw [Nat.sub_eq_zero_of_le h, List.drop_zero]

theorem length_lastk (k : Nat) (l : List Nat) :
    (lastk k l).length = min k l.length := by
  unfold lastk
  rw [List.length_drop]
  omega

theorem lastk_subset (k : Nat) (l : List Nat) : ∀ x ∈ lastk k l, x ∈ l := by
  intro x hx
  exact List.mem_of_mem_drop hx

theorem lastk_append_of_le (k : Nat) (l : List Nat) (b : Nat)
    (hk : 1 ≤ k) (h : k ≤ l.length) :
    lastk k (l ++ [b]) = (lastk k l).drop 1 ++ [b] := by
  unfold lastk
  rw [List.length_append, List.length_singleton, List.drop_drop,
    List.drop_append_of_le_length (by omega)]
  congr 2
  omega

theorem lastk_append_of_lt (k : Nat) (l : List Nat) (b : Nat)
    (h : l.length < k) : lastk k (l ++ [b]) = l ++ [b] := by
  apply lastk_of_le
  rw [List.length_append, List.length_singleton]
  omega

/-! ### Small facts about `bump`, `bumpT` and `step` -/

theorem length_bumpT (res : List Nat) (i : Nat) :
    (bumpT res i).length = res.length := by
  unfold bumpT
  exact List.length_set res i _

theorem bump_eq_of_lt (res : List Nat) (i : Nat) (h : i < res.length) :
    bump res i = some (bumpT res i) := by
  unfold bump bumpT
  rw [if_pos h]

theorem step_invalid (k q x : Nat) (s : KState) :
    step k q x s (-1) = some ⟨0, 0, 0, s.res⟩ := by
  unfold step
  rw [if_pos rfl]

theorem step_full (k q x : Nat) (s : KState) (bit : Int)
    (hbit : ¬bit = -1) (hm : s.m = k)
    (h1 : ((s.fwd &&& x) <<< 2) + bit.toNat < s.res.length)
    (h2 : (s.rev >>> 2) + ((3 - bit).toNat <<< q) < s.res.length) :
    step k q x s bit =
      some ⟨((s.fwd &&& x) <<< 2) + bit.toNat,
            (s.rev >>> 2) + ((3 - bit).toNat <<< q), k,
            bumpT (bumpT s.res (((s.fwd &&& x) <<< 2) + bit.toNat))
              ((s.rev >>> 2) + ((3 - bit).toNat <<< q))⟩ := by
  have e1 : bump s.res (((s.fwd &&& x) <<< 2) + bit.toNat) =
      some (bumpT s.res (((s.fwd &&& x) <<< 2) + bit.toNat)) :=
    bump_eq_of_lt _ _ h1
  have e2 : bump (bumpT s.res (((s.fwd &&& x) <<< 2) + bit.toNat))
        ((s.rev >>> 2) + ((3 - bit).toNat <<< q)) =
      some (bumpT (bumpT s.res (((s.fwd &&& x) <<< 2) + bit.toNat))
        ((s.rev >>> 2) + ((3 - bit).toNat <<< q))) :=
    bump_eq_of_lt _ _ (by rw [length_bumpT]; exact h2)
  simp only [step, if_neg hbit, if_pos hm, e1, e2, hm, if_true]

theorem step_fill_complete (k q x : Nat) (s : KState) (bit : Int)
    (hbit : ¬bit = -1) (hm : s.m + 1 = k)
    (h1 : bit.toNat + (s.fwd <<< 2) < s.res.length)
    (h2 : s.rev + ((3 - bit).toNat <<< (2 * s.m)) < s.res.length) :
    step k q x s bit =
      some ⟨bit.toNat + (s.fwd <<< 2),
            s.rev + ((3 - bit).toNat <<< (2 * s.m)), s.m + 1,
            bumpT (bumpT s.res (bit.toNat + (s.fwd <<< 2)))
              (s.rev + ((3 - bit).toNat <<< (2 * s.m)))⟩ := by
  have e1 : bump s.res (bit.toNat + (s.fwd <<< 2)) =
      some (bumpT s.res (bit.toNat + (s.fwd <<< 2))) :=
    bump_eq_of_lt _ _ h1
  have e2 : bump (bumpT s.res (bit.toNat + (s.fwd <<< 2)))
        (s.rev + ((3 - bit).toNat <<< (2 * s.m))) =
      some (bumpT (bumpT s.res (bit.toNat + (s.fwd <<< 2)))
        (s.rev + ((3 - bit).toNat <<< (2 * s.m)))) :=
    bump_eq_of_lt _ _ (by rw [length_bumpT]; exact h2)
  simp only [step, if_neg hbit, if_neg (show ¬s.m = k by omega), if_pos hm, e1, e2]

theorem step_fill_incomplete (k q x : Nat) (s : KState) (bit : Int)
    (hbit : ¬bit = -1) (hmk : ¬s.m = k) (hm1 : ¬s.m + 1 = k) :
    step k q x s bit =
      some ⟨bit.toNat + (s.fwd <<< 2),
            s.rev + ((3 - bit).toNat <<< (2 * s.m)), s.m + 1, s.res⟩ := by
  simp only [step, if_neg hbit, if_neg hmk, if_neg hm1]

theorem four_pow_eq (j : Nat) : (4 : Nat) ^ j = 2 ^ (j * 2) := by
  rw [Nat.mul_comm, pow_mul]
  norm_num

theorem curRunFrom_le (bits : List Int) :
    ∀ r : List Nat, (∀ a ∈ r, a ≤ 3) →
      (∀ b ∈ bits, b = -1 ∨ (0 ≤ b ∧ b ≤ 3)) →
      ∀ a ∈ curRunFrom r bits, a ≤ 3 := by
  induction bits with
  | nil => intro r hr _; exact hr
  | cons b bs ih =>
    intro r hr hb
    unfold curRunFrom
    by_cases hbe : b = -1
    · rw [if_pos hbe]
      exact ih [] (by simp) (fun c hc => hb c (by simp [hc]))
    · rw [if_neg hbe]
      refine ih (r ++ [b.toNat]) ?_ (fun c hc => hb c (by simp [hc]))
      intro a ha
      rcases List.mem_append.mp ha with h | h
      · exact hr a h
      · rcases hb b (by simp) with h' | h'
        · exact absurd h' hbe
        · simp only [List.mem_singleton] at h
          omega

/-! ### The master simulation: the loop computes window counts

Starting from the state corresponding to an accumulated valid run `r`,
processing `bits` yields exactly the state of the run `curRunFrom r bits`
with the result array incremented twice per window of `winsFrom k r bits`. -/

theorem foldlM_step_eq (k q x : Nat) (hk : 1 ≤ k) (hq : q = (k - 1) * 2)
    (hx : x = 4 ^ (k - 1) - 1) :
    ∀ (bits : List Int) (r res : List Nat),
      (∀ b ∈ bits, b = -1 ∨ (0 ≤ b ∧ b ≤ 3)) →
      (∀ a ∈ r, a ≤ 3) →
      res.length = 4 ^ k →
      bits.foldlM (step k q x)
          ⟨enc (lastk k r), enc (rc (lastk k r)), min r.length k, res⟩ =
        some ⟨enc (lastk k (curRunFrom r bits)),
              enc (rc (lastk k (curRunFrom r bits))),
              min (curRunFrom r bits).length k,
              applyWins (winsFrom k r bits) res⟩ := by
  subst hq hx
  intro bits
  induction bits with
  | nil =>
    intro r res _ _ _
    simp [curRunFrom, winsFrom, applyWins, List.foldlM_nil]
  | cons b bs ih =>
    intro r res hb hr hres
    have hbs : ∀ c ∈ bs, c = -1 ∨ (0 ≤ c ∧ c ≤ 3) := fun c hc => hb c (by simp [hc])
    rw [List.foldlM_cons]
    rcases hb b (by simp) with hbinv | ⟨hb0, hb3⟩
    · -- invalid character: reset
      subst hbinv
      rw [step_invalid]
      have h0 : (⟨0, 0, 0, res⟩ : KState) =
          ⟨enc (lastk k ([] : List Nat)), enc (rc (lastk k ([] : List Nat))),
            min ([] : List Nat).length k, res⟩ := by
        simp [lastk, enc, rc]
      have hcur : curRunFrom r (-1 :: bs) = curRunFrom [] bs := by
        simp [curRunFrom]
      have hwin : winsFrom k r (-1 :: bs) = winsFrom k [] bs := by
        simp [winsFrom]
      rw [h0, hcur, hwin]
      exact ih [] res hbs (by simp) hres
    · -- valid character
      have hbne : ¬b = -1 := by omega
      have hbnat : b.toNat ≤ 3 := by omega
      have h3b : (3 - b).toNat = 3 - b.toNat := by omega
      have hr' : ∀ a ∈ r ++ [b.toNat], a ≤ 3 := by
        intro a ha
        rcases List.mem_append.mp ha with h | h
        · exact hr a h
        · simp only [List.mem_singleton] at h; omega
      have hcur : curRunFrom r (b :: bs) = curRunFrom (r ++ [b.toNat]) bs := by
        simp [curRunFrom, hbne]
      by_cases hkr : k ≤ r.length
      · -- window already full: slide
        have hm : min r.length k = k := by omega
        have hWlen : (lastk k r).length = k := by rw [length_lastk]; omega
        obtain ⟨w, W', hW⟩ : ∃ w W', lastk k r = w :: W' := by
          cases hL : lastk k r with
          | nil => rw [hL] at hWlen; simp at hWlen; omega
          | cons w W' => exact ⟨w, W', rfl⟩
        have hW'len : W'.length = k - 1 := by
          rw [hW] at hWlen; simp at hWlen; omega
        have hWmem : ∀ a ∈ lastk k r, a ≤ 3 := fun a ha => hr a (lastk_subset _ _ a ha)
        have hW'mem : ∀ a ∈ W', a ≤ 3 := by
          intro a ha; exact hWmem a (by rw [hW]; simp [ha])
        have hwa : w ≤ 3 := hWmem w (by rw [hW]; simp)
        have hnewW : lastk k (r ++ [b.toNat]) = W' ++ [b.toNat] := by
          rw [lastk_append_of_le k r b.toNat hk hkr, hW]
          simp
        have hfwd : ((enc (lastk k r) &&& (4 ^ (k - 1) - 1)) <<< 2) + b.toNat =
            enc (lastk k (r ++ [b.toNat])) := by
          rw [four_pow_eq, Nat.and_pow_two_sub_one_eq_mod, ← four_pow_eq, hW,
            show (4 : Nat) ^ (k - 1) = 4 ^ W'.length by rw [hW'len],
            enc_mod w W' hW'mem, Nat.shiftLeft_eq, hnewW, enc_append_singleton]
          ring
        have hrev : (enc (rc (lastk k r)) >>> 2) +
              ((3 - b).toNat <<< ((k - 1) * 2)) =
            enc (rc (lastk k (r ++ [b.toNat]))) := by
          rw [hW, rc_cons, Nat.shiftRight_eq_div_pow,
            show (2 : Nat) ^ 2 = 4 from rfl,
            enc_div (rc W') (3 - w) (by omega),
            Nat.shiftLeft_eq, ← four_pow_eq, hnewW, rc_append_singleton, enc_cons,
            length_rc, hW'len, h3b]
          ring
        have hlt1 : ((enc (lastk k r) &&& (4 ^ (k - 1) - 1)) <<< 2) + b.toNat <
            res.length := by
          rw [hfwd, hres, hnewW]
          have hwl : (W' ++ [b.toNat]).length = k := by simp [hW'len]; omega
          rw [← hwl]
          exact enc_lt _ (by
            intro a ha
            rcases List.mem_append.mp ha with h | h
            · exact hW'mem a h
            · simp only [List.mem_singleton] at h; omega)
        have hlt2 : (enc (rc (lastk k r)) >>> 2) +
              ((3 - b).toNat <<< ((k - 1) * 2)) < res.length := by
          rw [hrev, hres, hnewW]
          have hl : (rc (W' ++ [b.toNat])).length = k := by
            rw [length_rc]; simp [hW'len]; omega
          rw [← hl]
          exact enc_lt _ (mem_rc_le _)
        rw [step_full k ((k - 1) * 2) (4 ^ (k - 1) - 1)
            ⟨enc (lastk k r), enc (rc (lastk k r)), min r.length k, res⟩ b hbne
            (by simpa using hm) (by simpa using hlt1) (by simpa using hlt2)]
        have harg : (⟨((enc (lastk k r) &&& (4 ^ (k - 1) - 1)) <<< 2) + b.toNat,
              (enc (rc (lastk k r)) >>> 2) + ((3 - b).toNat <<< ((k - 1) * 2)), k,
              bumpT (bumpT res
                (((enc (lastk k r) &&& (4 ^ (k - 1) - 1)) <<< 2) + b.toNat))
                ((enc (rc (lastk k r)) >>> 2) +
                  ((3 - b).toNat <<< ((k - 1) * 2)))⟩ : KState) =
            ⟨enc (lastk k (r ++ [b.toNat])), enc (rc (lastk k (r ++ [b.toNat]))),
              min (r ++ [b.toNat]).length k,
              bumpT (bumpT res (enc (lastk k (r ++ [b.toNat]))))
                (enc (rc (lastk k (r ++ [b.toNat]))))⟩ := by
          rw [hfwd, hrev]
          have : min (r ++ [b.toNat]).length k = k := by
            simp only [List.length_append, List.length_singleton]; omega
          rw [this]
        have hwin : winsFrom k r (b :: bs) =
            lastk k (r ++ [b.toNat]) :: winsFrom k (r ++ [b.toNat]) bs := by
          simp [winsFrom, hbne, show k ≤ r.length + 1 by omega]
        rw [harg, hcur, hwin]
        exact ih (r ++ [b.toNat]) _ hbs hr' (by simp [length_bumpT, hres])
      · -- window still filling
        have hm : min r.length k = r.length := by omega
        have hlast : lastk k r = r := lastk_of_le k r (by omega)
        have hlast' : lastk k (r ++ [b.toNat]) = r ++ [b.toNat] := by
          apply lastk_of_le
          simp only [List.length_append, List.length_singleton]; omega
        have hfwd : b.toNat + (enc (lastk k r) <<< 2) =
            enc (lastk k (r ++ [b.toNat])) := by
          rw [hlast, hlast', Nat.shiftLeft_eq,
            show (2 : Nat) ^ 2 = 4 from rfl, enc_append_singleton]
          ring
        have hrev : enc (rc (lastk k r)) + ((3 - b).toNat <<< (2 * min r.length k)) =
            enc (rc (lastk k (r ++ [b.toNat]))) := by
          rw [hlast, hlast', hm, rc_append_singleton, enc_cons, length_rc,
            Nat.shiftLeft_eq, h3b, Nat.mul_comm 2 r.length, ← four_pow_eq]
          ring
        by_cases hke : r.length + 1 = k
        · -- the first full window completes here
          have hlt1 : b.toNat + (enc (lastk k r) <<< 2) < res.length := by
            rw [hfwd, hres, hlast']
            have hrl : (r ++ [b.toNat]).length = k := by simp; omega
            rw [← hrl]
            exact enc_lt _ hr'
          have hlt2 : enc (rc (lastk k r)) +
                ((3 - b).toNat <<< (2 * min r.length k)) < res.length := by
            rw [hrev, hres, hlast']
            have hl : (rc (r ++ [b.toNat])).length = k := by
              rw [length_rc]; simp; omega
            rw [← hl]
            exact enc_lt _ (mem_rc_le _)
          rw [step_fill_complete k ((k - 1) * 2) (4 ^ (k - 1) - 1)
              ⟨enc (lastk k r), enc (rc (lastk k r)), min r.length k, res⟩ b hbne
              (by simpa [hm] using hke) (by simpa using hlt1) (by simpa using hlt2)]
          have harg : (⟨b.toNat + (enc (lastk k r) <<< 2),
                enc (rc (lastk k r)) + ((3 - b).toNat <<< (2 * min r.length k)),
                min r.length k + 1,
                bumpT (bumpT res (b.toNat + (enc (lastk k r) <<< 2)))
                  (enc (rc (lastk k r)) +
                    ((3 - b).toNat <<< (2 * min r.length k)))⟩ : KState) =
              ⟨enc (lastk k (r ++ [b.toNat])), enc (rc (lastk k (r ++ [b.toNat]))),
                min (r ++ [b.toNat]).length k,
                bumpT (bumpT res (enc (lastk k (r ++ [b.toNat]))))
                  (enc (rc (lastk k (r ++ [b.toNat]))))⟩ := by
            rw [hfwd, hrev, hm]
            have : min (r ++ [b.toNat]).length k = r.length + 1 := by
              simp only [List.length_append, List.length_singleton]; omega
            rw [this]
          have hwin : winsFrom k r (b :: bs) =
              lastk k (r ++ [b.toNat]) :: winsFrom k (r ++ [b.toNat]) bs := by
            simp [winsFrom, hbne, show k ≤ r.length + 1 by omega]
          rw [harg, hcur, hwin]
          exact ih (r ++ [b.toNat]) _ hbs hr' (by simp [length_bumpT, hres])
        · -- still incomplete
          rw [step_fill_incomplete k ((k - 1) * 2) (4 ^ (k - 1) - 1)
              ⟨enc (lastk k r), enc (rc (lastk k r)), min r.length k, res⟩ b hbne
              (by simpa [hm] using show ¬r.length = k by omega)
              (by simpa [hm] using hke)]
          have harg : (⟨b.toNat + (enc (lastk k r) <<< 2),
                enc (rc (lastk k r)) + ((3 - b).toNat <<< (2 * min r.length k)),
                min r.length k + 1, res⟩ : KState) =
              ⟨enc (lastk k (r ++ [b.toNat])), enc (rc (lastk k (r ++ [b.toNat]))),
                min (r ++ [b.toNat]).length k, res⟩ := by
            rw [hfwd, hrev, hm]
            have : min (r ++ [b.toNat]).length k = r.length + 1 := by
              simp only [List.length_append, List.length_singleton]; omega
            rw [this]
          have hwin : winsFrom k r (b :: bs) = winsFrom k (r ++ [b.toNat]) bs := by
            simp [winsFrom, hbne, show ¬k ≤ r.length + 1 by omega]
          rw [harg, hcur, hwin]
          exact ih (r ++ [b.toNat]) res hbs hr' hres

theorem tobit_range (c : Char) : tobit c = -1 ∨ (0 ≤ tobit c ∧ tobit c ≤ 3) := by
  unfold tobit
  split_ifs <;> simp

theorem tobit_bits_range (l : List Char) :
    ∀ b ∈ l.map tobit, b = -1 ∨ (0 ≤ b ∧ b ≤ 3) := by
  intro b hb
  obtain ⟨c, _, rfl⟩ := List.mem_map.mp hb
  exact tobit_range c

/-- The central description of `count_kmers` for a valid word length:
it succeeds, and its result is the all-zero vector incremented twice per
complete valid window. -/
theorem count_kmers_eq (k : Nat) (hk : 1 ≤ k) (s : String) :
    count_kmers s (k : Int) (4 ^ k) tobit =
      some (applyWins (winsFrom k [] (s.data.map tobit))
        (List.replicate (4 ^ k) 0)) := by
  unfold count_kmers
  rw [if_neg (by omega : ¬((k : Int) - 1) * 2 < 0)]
  have hq : (((k : Int) - 1) * 2).toNat = (k - 1) * 2 := by omega
  have hkn : (k : Int).toNat = k := by omega
  have hx : (1 : Nat) <<< ((k - 1) * 2) - 1 = 4 ^ (k - 1) - 1 := by
    rw [Nat.shiftLeft_eq, Nat.one_mul, ← four_pow_eq]
  have h0 : (⟨0, 0, 0, List.replicate (4 ^ k) 0⟩ : KState) =
      ⟨enc (lastk k ([] : List Nat)), enc (rc (lastk k ([] : List Nat))),
        min ([] : List Nat).length k, List.replicate (4 ^ k) 0⟩ := by
    simp [lastk, enc, rc]
  rw [hq, hkn]
  show Option.map KState.res
      ((s.data.map tobit).foldlM (step k ((k - 1) * 2) (1 <<< ((k - 1) * 2) - 1))
        ⟨0, 0, 0, List.replicate (4 ^ k) 0⟩) =
    some (applyWins (winsFrom k [] (s.data.map tobit)) (List.replicate (4 ^ k) 0))
  rw [hx, h0,
    foldlM_step_eq k ((k - 1) * 2) (4 ^ (k - 1) - 1) hk rfl rfl
      (s.data.map tobit) [] (List.replicate (4 ^ k) 0)
      (tobit_bits_range s.data) (by simp) (by simp)]
  rfl

/-! ### Properties of `applyWins` and `winsFrom` -/

theorem length_applyWins (ws : List (List Nat)) :
    ∀ res : List Nat, (applyWins ws res).length = res.length := by
  induction ws with
  | nil => intro res; rfl
  | cons w ws ih =>
    intro res
    show (applyWins ws _).length = _
    rw [ih, length_bumpT, length_bumpT]

theorem sum_bumpT (res : List Nat) (i : Nat) (h : i < res.length) :
    (bumpT res i).sum = res.sum + 1 := by
  induction res generalizing i with
  | nil => simp at h
  | cons a l ih =>
    cases i with
    | zero => simp [bumpT, List.set]; omega
    | succ j =>
      have hj : j < l.length := by simpa using h
      show (a :: bumpT l j).sum = _
      rw [List.sum_cons, List.sum_cons, ih j hj]
      omega

theorem getD_bumpT (res : List Nat) (i j : Nat) (hj : j < res.length) :
    (bumpT res i).getD j 0 = res.getD j 0 + (if i = j then 1 else 0) := by
  unfold bumpT
  by_cases hij : i = j
  · subst hij
    rw [List.getD_eq_getElem _ _ (by rwa [List.length_set]),
      List.getElem_set, if_pos rfl, if_pos rfl,
      List.getD_eq_getElem _ _ hj]
  · rw [List.getD_eq_getElem _ _ (by rwa [List.length_set]),
      List.getElem_set, if_neg hij, if_neg hij,
      List.getD_eq_getElem _ _ hj]
    omega

theorem sum_applyWins (ws : List (List Nat)) :
    ∀ res : List Nat,
      (∀ w ∈ ws, enc w < res.length ∧ enc (rc w) < res.length) →
      (applyWins ws res).sum = res.sum + 2 * ws.length := by
  induction ws with
  | nil => intro res _; simp [applyWins]
  | cons w ws ih =>
    intro res h
    obtain ⟨h1, h2⟩ := h w (by simp)
    show (applyWins ws (bumpT (bumpT res (enc w)) (enc (rc w)))).sum = _
    rw [ih _ (by
      intro v hv
      have := h v (by simp [hv])
      simpa [length_bumpT] using this)]
    rw [sum_bumpT _ _ (by rwa [length_bumpT]), sum_bumpT _ _ h1]
    simp [List.length_cons]
    ring

theorem getD_applyWins (ws : List (List Nat)) :
    ∀ (res : List Nat) (i : Nat), i < res.length →
      (applyWins ws res).getD i 0 = res.getD i 0 + tally ws i := by
  induction ws with
  | nil => intro res i _; simp [applyWins, tally]
  | cons w ws ih =>
    intro res i hi
    show (applyWins ws (bumpT (bumpT res (enc w)) (enc (rc w)))).getD i 0 = _
    rw [ih _ i (by simp [length_bumpT, hi]),
      getD_bumpT _ _ _ (by simpa [length_bumpT] using hi),
      getD_bumpT _ _ _ hi]
    unfold tally
    rw [List.countP_cons, List.countP_cons]
    simp only [beq_iff_eq]
    by_cases e1 : enc w = i <;> by_cases e2 : enc (rc w) = i <;>
      simp [e1, e2] <;> omega

theorem winsFrom_shape (k : Nat) (bits : List Int) :
    ∀ r : List Nat,
      (∀ b ∈ bits, b = -1 ∨ (0 ≤ b ∧ b ≤ 3)) →
      (∀ a ∈ r, a ≤ 3) →
      ∀ w ∈ winsFrom k r bits, w.length = k ∧ ∀ a ∈ w, a ≤ 3 := by
  induction bits with
  | nil => intro r _ _ w hw; simp [winsFrom] at hw
  | cons b bs ih =>
    intro r hb hr w hw
    have hbs : ∀ c ∈ bs, c = -1 ∨ (0 ≤ c ∧ c ≤ 3) := fun c hc => hb c (by simp [hc])
    by_cases hbe : b = -1
    · rw [winsFrom, if_pos hbe] at hw
      exact ih [] hbs (by simp) w hw
    · rcases hb b (by simp) with h | ⟨h0, h3⟩
      · exact absurd h hbe
      have hr' : ∀ a ∈ r ++ [b.toNat], a ≤ 3 := by
        intro a ha
        rcases List.mem_append.mp ha with h | h
        · exact hr a h
        · simp only [List.mem_singleton] at h; omega
      rw [winsFrom, if_neg hbe] at hw
      rcases List.mem_append.mp hw with h | h
      · by_cases hcond : k ≤ r.length + 1
        · rw [if_pos hcond, List.mem_singleton] at h
          subst h
          constructor
          · rw [length_lastk]
            simp only [List.length_append, List.length_singleton]
            omega
          · intro a ha
            exact hr' a (lastk_subset _ _ a ha)
        · rw [if_neg hcond] at h
          simp at h
      · exact ih (r ++ [b.toNat]) hbs hr' w h

theorem winsFrom_bounds (k : Nat) (bits : List Int)
    (hb : ∀ b ∈ bits, b = -1 ∨ (0 ≤ b ∧ b ≤ 3)) :
    ∀ w ∈ winsFrom k [] bits, enc w < 4 ^ k ∧ enc (rc w) < 4 ^ k := by
  intro w hw
  obtain ⟨hlen, hmem⟩ := winsFrom_shape k bits [] hb (by simp) w hw
  constructor
  · rw [← hlen]; exact enc_lt w hmem
  · rw [← hlen, ← length_rc]; exact enc_lt _ (mem_rc_le w)

theorem winsFrom_length_valid (k : Nat) (bits : List Int)
    (hb : ∀ b ∈ bits, 0 ≤ b ∧ b ≤ 3) :
    ∀ r : List Nat,
      (winsFrom k r bits).length = min bits.length (r.length + bits.length + 1 - k) := by
  induction bits with
  | nil => intro r; simp [winsFrom]
  | cons b bs ih =>
    intro r
    have hbs : ∀ c ∈ bs, 0 ≤ c ∧ c ≤ 3 := fun c hc => hb c (by simp [hc])
    obtain ⟨h0, h3⟩ := hb b (by simp)
    have hbe : ¬b = -1 := by omega
    rw [winsFrom, if_neg hbe, List.length_append, ih hbs (r ++ [b.toNat])]
    simp only [List.length_append, List.length_singleton, List.length_cons]
    by_cases hcond : k ≤ r.length + 1
    · rw [if_pos hcond]
      simp only [List.length_singleton]
      omega
    · rw [if_neg hcond]
      simp only [List.length_nil]
      omega

/-! ### Claim C1: total count on clean sequences -/

/-- C1.  For every `k ≥ 1` and every sequence over `{A,C,G,T}` of length
`L`, the vector returned by `count_kmers(seq, k, 4^k, tobit)` sums to
exactly `2 * max 0 (L - k + 1)`. -/
theorem count_kmers_valid_sum (k : Nat) (hk : 1 ≤ k) (s : String)
    (hv : ∀ c ∈ s.data, c = 'A' ∨ c = 'C' ∨ c = 'G' ∨ c = 'T') :
    ∃ res, count_kmers s (k : Int) (4 ^ k) tobit = some res ∧
      (res.sum : Int) = 2 * max 0 ((s.length : Int) - k + 1) := by
  refine ⟨_, count_kmers_eq k hk s, ?_⟩
  have hbits : ∀ b ∈ s.data.map tobit, 0 ≤ b ∧ b ≤ 3 := by
    intro b hb
    obtain ⟨c, hc, rfl⟩ := List.mem_map.mp hb
    rcases hv c hc with h | h | h | h <;> subst h <;> simp [tobit]
  have hlen := winsFrom_length_valid k (s.data.map tobit) hbits []
  have hsum := sum_applyWins (winsFrom k [] (s.data.map tobit))
    (List.replicate (4 ^ k) 0)
    (by
      intro w hw
      have hb := winsFrom_bounds k (s.data.map tobit)
        (tobit_bits_range s.data) w hw
      simpa using hb)
  rw [hsum, hlen]
  have hz : (List.replicate (4 ^ k) 0).sum = 0 := by simp
  have hsl : s.length = s.data.length := rfl
  rw [hz, hsl]
  simp only [List.length_map, List.length_nil, Nat.zero_add]
  omega

theorem count_kmers_valid_sum_w :
    ∃ res, count_kmers "ACGT" ((2 : Nat) : Int) (4 ^ 2) tobit = some res ∧
      (res.sum : Int) = 2 * max 0 ((("ACGT" : String).length : Int) - 2 + 1) :=
  count_kmers_valid_sum 2 (by norm_num) "ACGT" (by decide)

/-! ### Claim C9: empty sequence -/

/-- C9.  For every `k ≥ 1`, `count_kmers` on the empty sequence returns
the all-zero vector of length `4^k`. -/
theorem count_kmers_empty (k : Nat) (hk : 1 ≤ k) :
    count_kmers "" (k : Int) (4 ^ k) tobit = some (List.replicate (4 ^ k) 0) := by
  rw [count_kmers_eq k hk ""]
  rfl

theorem count_kmers_empty_w :
    count_kmers "" ((3 : Nat) : Int) (4 ^ 3) tobit =
      some (List.replicate (4 ^ 3) 0) :=
  count_kmers_empty 3 (by norm_num)

/-! ### Claim C8: no exception on any input, valid configuration -/

/-- C8.  With a valid configuration `k ≥ 1`, per-character processing
never fails, for any input string whatsoever: characters outside
`{A,C,G,T}` map to the sentinel `-1` and are handled by the reset branch
before any indexing, so `count_kmers` always returns a result. -/
theorem count_kmers_no_exception (k : Nat) (hk : 1 ≤ k) (s : String) :
    (∀ c : Char, c ∉ (['A', 'C', 'G', 'T'] : List Char) → tobit c = -1) ∧
      ∃ res, count_kmers s (k : Int) (4 ^ k) tobit = some res := by
  constructor
  · intro c hc
    simp only [List.mem_cons, List.not_mem_nil, or_false, not_or] at hc
    obtain ⟨h1, h2, h3, h4⟩ := hc
    simp [tobit, h1, h2, h3, h4]
  · exact ⟨_, count_kmers_eq k hk s⟩

theorem count_kmers_no_exception_w :
    (∀ c : Char, c ∉ (['A', 'C', 'G', 'T'] : List Char) → tobit c = -1) ∧
      ∃ res, count_kmers "AxN!gT" ((1 : Nat) : Int) (4 ^ 1) tobit = some res :=
  count_kmers_no_exception 1 (by norm_num) "AxN!gT"

/-! ### Claim C3: the rolling-register invariant -/

/-- C3.  At every point of the per-character loop at which `m = k`,
`fwd` encodes exactly the last `k` valid bases in forward order, `rev`
encodes their reverse complement, and both registers lie in `[0, 4^k)`,
so the two increments are within the bounds of the length-`4^k` array. -/
theorem rolling_state_invariant (k : Nat) (hk : 1 ≤ k) (s : String) (j : Nat) :
    ∃ st, countState s k j = some st ∧ st.res.length = 4 ^ k ∧
      (st.m = k →
        st.fwd = enc (lastk k (curRunFrom [] ((s.data.map tobit).take j))) ∧
        st.rev = enc (rc (lastk k (curRunFrom [] ((s.data.map tobit).take j)))) ∧
        (lastk k (curRunFrom [] ((s.data.map tobit).take j))).length = k ∧
        st.fwd < 4 ^ k ∧ st.rev < 4 ^ k) := by
  have hbits : ∀ b ∈ (s.data.map tobit).take j, b = -1 ∨ (0 ≤ b ∧ b ≤ 3) :=
    fun b hb => tobit_bits_range s.data b (List.mem_of_mem_take hb)
  have hx : (1 : Nat) <<< ((k - 1) * 2) - 1 = 4 ^ (k - 1) - 1 := by
    rw [Nat.shiftLeft_eq, Nat.one_mul, ← four_pow_eq]
  have h0 : (⟨0, 0, 0, List.replicate (4 ^ k) 0⟩ : KState) =
      ⟨enc (lastk k ([] : List Nat)), enc (rc (lastk k ([] : List Nat))),
        min ([] : List Nat).length k, List.replicate (4 ^ k) 0⟩ := by
    simp [lastk, enc, rc]
  have key := foldlM_step_eq k ((k - 1) * 2) (4 ^ (k - 1) - 1) hk rfl rfl
    ((s.data.map tobit).take j) [] (List.replicate (4 ^ k) 0) hbits
    (by simp) (by simp)
  have hRmem : ∀ a ∈ curRunFrom [] ((s.data.map tobit).take j), a ≤ 3 :=
    curRunFrom_le _ [] (by simp) hbits
  refine ⟨⟨enc (lastk k (curRunFrom [] ((s.data.map tobit).take j))),
      enc (rc (lastk k (curRunFrom [] ((s.data.map tobit).take j)))),
      min (curRunFrom [] ((s.data.map tobit).take j)).length k,
      applyWins (winsFrom k [] ((s.data.map tobit).take j))
        (List.replicate (4 ^ k) 0)⟩, ?_, ?_, ?_⟩
  · unfold countState
    rw [hx, h0]
    exact key
  · show (applyWins _ _).length = 4 ^ k
    rw [length_applyWins]
    simp
  · intro hm
    have hm' : min (curRunFrom [] ((s.data.map tobit).take j)).length k = k := hm
    have hkR : k ≤ (curRunFrom [] ((s.data.map tobit).take j)).length := by
      rcases Nat.le_total k (curRunFrom [] ((s.data.map tobit).take j)).length with h | h
      · exact h
      · rw [Nat.min_eq_left h] at hm'
        omega
    have hWlen : (lastk k (curRunFrom [] ((s.data.map tobit).take j))).length = k := by
      rw [length_lastk]; omega
    refine ⟨rfl, rfl, hWlen, ?_, ?_⟩
    · have h := enc_lt (lastk k (curRunFrom [] ((s.data.map tobit).take j)))
        (fun a ha => hRmem a (lastk_subset _ _ a ha))
      rwa [hWlen] at h
    · have h := enc_lt (rc (lastk k (curRunFrom [] ((s.data.map tobit).take j))))
        (mem_rc_le _)
      rwa [length_rc, hWlen] at h

theorem rolling_state_invariant_w :
    ∃ st, countState "ACGTN" 2 3 = some st ∧ st.res.length = 4 ^ 2 ∧
      (st.m = 2 →
        st.fwd = enc (lastk 2 (curRunFrom []
          ((("ACGTN" : String).data.map tobit).take 3))) ∧
        st.rev = enc (rc (lastk 2 (curRunFrom []
          ((("ACGTN" : String).data.map tobit).take 3)))) ∧
        (lastk 2 (curRunFrom []
          ((("ACGTN" : String).data.map tobit).take 3))).length = 2 ∧
        st.fwd < 4 ^ 2 ∧ st.rev < 4 ^ 2) :=
  rolling_state_invariant 2 (by norm_num) "ACGTN" 3

/-! ### Claim C5: an invalid character splits counting -/

theorem tobit_eq_neg_one (c : Char)
    (hc : c ∉ (['A', 'C', 'G', 'T'] : List Char)) : tobit c = -1 := by
  simp only [List.mem_cons, List.not_mem_nil, or_false, not_or] at hc
  obtain ⟨h1, h2, h3, h4⟩ := hc
  simp [tobit, h1, h2, h3, h4]

theorem winsFrom_append_invalid (k : Nat) (xs : List Int) :
    ∀ (r : List Nat) (ys : List Int),
      winsFrom k r (xs ++ -1 :: ys) = winsFrom k r xs ++ winsFrom k [] ys := by
  induction xs with
  | nil => intro r ys; simp [winsFrom]
  | cons b bs ih =>
    intro r ys
    by_cases hbe : b = -1
    · subst hbe
      simp only [List.cons_append, winsFrom, if_pos rfl]
      exact ih [] ys
    · simp only [List.cons_append, winsFrom, if_neg hbe, List.append_eq,
        ih (r ++ [b.toNat]) ys, List.append_assoc]

theorem tally_append (ws1 ws2 : List (List Nat)) (i : Nat) :
    tally (ws1 ++ ws2) i = tally ws1 i + tally ws2 i := by
  unfold tally
  rw [List.countP_append, List.countP_append]
  ring

theorem applyWins_append (ws1 ws2 : List (List Nat)) (res : List Nat) :
    applyWins (ws1 ++ ws2) res = applyWins ws2 (applyWins ws1 res) := by
  unfold applyWins
  rw [List.foldl_append]

theorem getElem_applyWins_zero (n : Nat) (ws : List (List Nat)) (i : Nat)
    (h : i < (applyWins ws (List.replicate n 0)).length) :
    (applyWins ws (List.replicate n 0))[i] = tally ws i := by
  have hi : i < n := by rwa [length_applyWins, List.length_replicate] at h
  have hiz : i < (List.replicate n 0).length := by simpa using hi
  rw [← List.getD_eq_getElem _ 0 h, getD_applyWins _ _ i hiz,
    List.getD_eq_getElem _ 0 hiz]
  simp

/-- C5.  For `k ≥ 1`, strings `S1`, `S2` and a character `c` outside
`{A,C,G,T}`, `count_kmers` on `S1 ++ c ++ S2` equals the pointwise sum
of `count_kmers S1` and `count_kmers S2`: the invalid character resets
the rolling state, so no k-mer spans it and the two sides are counted
independently. -/
theorem count_kmers_split_invalid (k : Nat) (hk : 1 ≤ k) (s1 s2 : String)
    (c : Char) (hc : c ∉ (['A', 'C', 'G', 'T'] : List Char)) :
    ∃ r1 r2 r12,
      count_kmers s1 (k : Int) (4 ^ k) tobit = some r1 ∧
      count_kmers s2 (k : Int) (4 ^ k) tobit = some r2 ∧
      count_kmers (s1 ++ String.singleton c ++ s2) (k : Int) (4 ^ k) tobit =
        some r12 ∧
      r12 = List.zipWith (· + ·) r1 r2 := by
  have hcm : tobit c = -1 := tobit_eq_neg_one c hc
  refine ⟨_, _, _, count_kmers_eq k hk s1, count_kmers_eq k hk s2,
    count_kmers_eq k hk _, ?_⟩
  have hdata : (s1 ++ String.singleton c ++ s2).data = s1.data ++ c :: s2.data := by
    show s1.data ++ [c] ++ s2.data = _
    simp
  have hbits : (s1 ++ String.singleton c ++ s2).data.map tobit =
      (s1.data.map tobit) ++ -1 :: (s2.data.map tobit) := by
    rw [hdata]
    simp [hcm]
  rw [hbits, winsFrom_append_invalid k _ [] _]
  apply List.ext_getElem
  · rw [length_applyWins, List.length_zipWith, length_applyWins, length_applyWins]
    simp
  · intro i h1 h2
    rw [List.getElem_zipWith, getElem_applyWins_zero, getElem_applyWins_zero,
      getElem_applyWins_zero, tally_append]

theorem count_kmers_split_invalid_w :
    ∃ r1 r2 r12,
      count_kmers "ACGT" ((2 : Nat) : Int) (4 ^ 2) tobit = some r1 ∧
      count_kmers "GG" ((2 : Nat) : Int) (4 ^ 2) tobit = some r2 ∧
      count_kmers ("ACGT" ++ String.singleton 'N' ++ "GG") ((2 : Nat) : Int)
        (4 ^ 2) tobit = some r12 ∧
      r12 = List.zipWith (· + ·) r1 r2 :=
  count_kmers_split_invalid 2 (by norm_num) "ACGT" "GG" 'N' (by decide)

/-! ### Claims C2 and C6: the k-mer universe and its index order -/

theorem kmerLoop_eq_digits (cs : List Char) (j : Nat) :
    ∀ (idx : Nat) (acc : List Char),
      kmerLoop cs j idx acc = kmerDigits cs j idx ++ acc := by
  induction j with
  | zero => intro idx acc; simp [kmerLoop, kmerDigits]
  | succ j ih =>
    intro idx acc
    show kmerLoop cs j (idx >>> 2) (cs.getD (idx &&& (4 - 1)) 'A' :: acc) = _
    rw [ih]
    simp [kmerDigits]

theorem length_kmerDigits (cs : List Char) (j : Nat) :
    ∀ idx : Nat, (kmerDigits cs j idx).length = j := by
  induction j with
  | zero => intro idx; rfl
  | succ j ih =>
    intro idx
    show (kmerDigits cs j (idx >>> 2) ++ [_]).length = _
    rw [List.length_append, ih]
    rfl

theorem getD_ACGT_mem (d : Nat) :
    "ACGT".data.getD d 'A' ∈ (['A', 'C', 'G', 'T'] : List Char) := by
  match d with
  | 0 => decide
  | 1 => decide
  | 2 => decide
  | 3 => decide
  | n + 4 =>
    rw [List.getD_eq_default _ _ (by show 4 ≤ n + 4; omega)]
    decide

theorem mem_kmerDigits (j : Nat) :
    ∀ (idx : Nat), ∀ c ∈ kmerDigits "ACGT".data j idx,
      c ∈ (['A', 'C', 'G', 'T'] : List Char) := by
  induction j with
  | zero => intro idx c hc; simp [kmerDigits] at hc
  | succ j ih =>
    intro idx c hc
    rw [show kmerDigits "ACGT".data (j + 1) idx =
        kmerDigits "ACGT".data j (idx >>> 2) ++
          ["ACGT".data.getD (idx &&& 3) 'A'] from rfl] at hc
    rcases List.mem_append.mp hc with h | h
    · exact ih _ c h
    · rw [List.mem_singleton] at h
      subst h
      exact getD_ACGT_mem _

theorem and3_eq_mod (i : Nat) : i &&& 3 = i % 4 := by
  have h := Nat.and_pow_two_sub_one_eq_mod i 2
  norm_num at h
  exact h

theorem shiftRight2_eq (i : Nat) : i >>> 2 = i / 4 :=
  Nat.shiftRight_eq_div_pow i 2

theorem kmerDigits_eq_specKmer (j : Nat) :
    ∀ i : Nat, kmerDigits "ACGT".data j i = specKmer j i := by
  induction j with
  | zero => intro i; rfl
  | succ j ih =>
    intro i
    show kmerDigits "ACGT".data j (i >>> 2) ++ [_] = specKmer j (i / 4) ++ [_]
    rw [ih, shiftRight2_eq, and3_eq_mod]

theorem kmerDigits_inj (j : Nat) :
    ∀ i1 i2 : Nat, i1 < 4 ^ j → i2 < 4 ^ j →
      kmerDigits "ACGT".data j i1 = kmerDigits "ACGT".data j i2 → i1 = i2 := by
  induction j with
  | zero => intro i1 i2 h1 h2 _; omega
  | succ j ih =>
    intro i1 i2 h1 h2 heq
    rw [show kmerDigits "ACGT".data (j + 1) i1 =
        kmerDigits "ACGT".data j (i1 >>> 2) ++
          ["ACGT".data.getD (i1 &&& 3) 'A'] from rfl,
      show kmerDigits "ACGT".data (j + 1) i2 =
        kmerDigits "ACGT".data j (i2 >>> 2) ++
          ["ACGT".data.getD (i2 &&& 3) 'A'] from rfl] at heq
    obtain ⟨hpre, hlast⟩ := List.append_inj' heq rfl
    have key : ∀ d1 : Nat, d1 < 4 → ∀ d2 : Nat, d2 < 4 →
        "ACGT".data.getD d1 'A' = "ACGT".data.getD d2 'A' → d1 = d2 := by decide
    have hm1 : i1 % 4 < 4 := Nat.mod_lt _ (by norm_num)
    have hm2 : i2 % 4 < 4 := Nat.mod_lt _ (by norm_num)
    rw [List.cons_eq_cons] at hlast
    have hmod : i1 % 4 = i2 % 4 := by
      apply key _ hm1 _ hm2
      rw [← and3_eq_mod, ← and3_eq_mod]
      exact hlast.1
    have hp : (4 : Nat) ^ (j + 1) = 4 ^ j * 4 := pow_succ 4 j
    have hd1 : i1 / 4 < 4 ^ j := Nat.div_lt_of_lt_mul (by omega)
    have hd2 : i2 / 4 < 4 ^ j := Nat.div_lt_of_lt_mul (by omega)
    have hdiv : i1 / 4 = i2 / 4 := by
      apply ih _ _ hd1 hd2
      rw [← shiftRight2_eq, ← shiftRight2_eq]
      exact hpre
    have e1 := Nat.div_add_mod i1 4
    have e2 := Nat.div_add_mod i2 4
    omega

theorem tobit_toNat_getD_ACGT : ∀ d : Nat, d < 4 →
    (tobit ("ACGT".data.getD d 'A')).toNat = d := by decide

theorem enc_tobit_kmerDigits (j : Nat) :
    ∀ i : Nat, i < 4 ^ j →
      enc ((kmerDigits "ACGT".data j i).map (fun c => (tobit c).toNat)) = i := by
  induction j with
  | zero => intro i hi; interval_cases i; rfl
  | succ j ih =>
    intro i hi
    rw [show kmerDigits "ACGT".data (j + 1) i =
        kmerDigits "ACGT".data j (i >>> 2) ++
          ["ACGT".data.getD (i &&& 3) 'A'] from rfl]
    rw [List.map_append, List.map_singleton, enc_append_singleton]
    have hp : (4 : Nat) ^ (j + 1) = 4 ^ j * 4 := pow_succ 4 j
    have hd : i / 4 < 4 ^ j := Nat.div_lt_of_lt_mul (by omega)
    rw [shiftRight2_eq, ih _ hd, and3_eq_mod,
      tobit_toNat_getD_ACGT _ (Nat.mod_lt _ (by norm_num))]
    omega

/-- C2.  For every `k ≥ 1`, `list_kmers('ACGT', k, 4^k)` returns `4^k`
pairwise-distinct strings, each of length `k` over `{A,C,G,T}`, and the
string at index `i` reads `i`'s 2-bit groups, most significant first,
through 0→A, 1→C, 2→G, 3→T (the definition `specKmer` states that
decoding in the spec's words). -/
theorem list_kmers_universe (k : Nat) (_hk : 1 ≤ k) :
    (list_kmers "ACGT".data k (4 ^ k)).length = 4 ^ k ∧
    (list_kmers "ACGT".data k (4 ^ k)).Nodup ∧
    (∀ w ∈ list_kmers "ACGT".data k (4 ^ k),
      w.length = k ∧ ∀ c ∈ w, c ∈ (['A', 'C', 'G', 'T'] : List Char)) ∧
    ∀ i < 4 ^ k, (list_kmers "ACGT".data k (4 ^ k)).getD i [] = specKmer k i := by
  refine ⟨by simp [list_kmers], ?_, ?_, ?_⟩
  · apply List.Nodup.map_on _ (List.nodup_range _)
    intro i1 h1 i2 h2 heq
    rw [List.mem_range] at h1 h2
    rw [kmerLoop_eq_digits, kmerLoop_eq_digits, List.append_nil,
      List.append_nil] at heq
    exact kmerDigits_inj k i1 i2 h1 h2 heq
  · intro w hw
    obtain ⟨i, _, rfl⟩ := List.mem_map.mp hw
    rw [kmerLoop_eq_digits, List.append_nil]
    exact ⟨length_kmerDigits _ k i, mem_kmerDigits k i⟩
  · intro i hi
    have hlen : i < (list_kmers "ACGT".data k (4 ^ k)).length := by
      simpa [list_kmers] using hi
    rw [List.getD_eq_getElem _ _ hlen]
    unfold list_kmers
    rw [List.getElem_map, List.getElem_range, kmerLoop_eq_digits,
      List.append_nil, kmerDigits_eq_specKmer]

theorem list_kmers_universe_w :
    (list_kmers "ACGT".data 2 (4 ^ 2)).length = 4 ^ 2 ∧
    (list_kmers "ACGT".data 2 (4 ^ 2)).Nodup ∧
    (∀ w ∈ list_kmers "ACGT".data 2 (4 ^ 2),
      w.length = 2 ∧ ∀ c ∈ w, c ∈ (['A', 'C', 'G', 'T'] : List Char)) ∧
    ∀ i < 4 ^ 2, (list_kmers "ACGT".data 2 (4 ^ 2)).getD i [] = specKmer 2 i :=
  list_kmers_universe 2 (by norm_num)

/-! ### Relating `winsFrom` to per-run windows (`runWins`, `segs`) -/

theorem runWins_append (k : Nat) (hk : 1 ≤ k) (l : List Nat) (b : Nat) :
    runWins k (l ++ [b]) =
      runWins k l ++ (if k ≤ l.length + 1 then [lastk k (l ++ [b])] else []) := by
  unfold runWins
  rw [List.length_append, List.length_singleton]
  by_cases hc : k ≤ l.length + 1
  · rw [if_pos hc, show l.length + 1 + 1 - k = (l.length + 1 - k) + 1 by omega,
      List.range_succ, List.map_append, List.map_singleton]
    congr 1
    · apply List.map_congr_left
      intro i hi
      rw [List.mem_range] at hi
      rw [List.drop_append_of_le_length (by omega),
        List.take_append_of_le_length (by rw [List.length_drop]; omega)]
    · congr 1
      unfold lastk
      rw [List.length_append, List.length_singleton]
      apply List.take_of_length_le
      rw [List.length_drop, List.length_append, List.length_singleton]
      omega
  · rw [if_neg hc, show l.length + 1 + 1 - k = 0 by omega,
      show l.length + 1 - k = 0 by omega]
    simp

theorem runWins_nil (k : Nat) (hk : 1 ≤ k) : runWins k [] = [] := by
  unfold runWins
  rw [show ([] : List Nat).length + 1 - k = 0 by simp; omega]
  rfl

theorem segsAux_flatMap (k : Nat) (hk : 1 ≤ k) (bits : List Int) :
    ∀ r : List Nat,
      (segsAux r bits).flatMap (runWins k) = runWins k r ++ winsFrom k r bits := by
  induction bits with
  | nil => intro r; simp [segsAux, winsFrom]
  | cons b bs ih =>
    intro r
    by_cases hbe : b = -1
    · rw [show segsAux r (b :: bs) = r :: segsAux [] bs by
        simp [segsAux, hbe]]
      rw [List.flatMap_cons, ih [], runWins_nil k hk, List.nil_append,
        show winsFrom k r (b :: bs) = winsFrom k [] bs by simp [winsFrom, hbe]]
    · rw [show segsAux r (b :: bs) = segsAux (r ++ [b.toNat]) bs by
        simp [segsAux, hbe]]
      rw [ih (r ++ [b.toNat]), runWins_append k hk r b.toNat,
        show winsFrom k r (b :: bs) =
          (if k ≤ r.length + 1 then [lastk k (r ++ [b.toNat])] else []) ++
            winsFrom k (r ++ [b.toNat]) bs by simp [winsFrom, hbe],
        List.append_assoc]

theorem winsFrom_eq_flatMap (k : Nat) (hk : 1 ≤ k) (bits : List Int) :
    winsFrom k [] bits = (segs bits).flatMap (runWins k) := by
  rw [segs, segsAux_flatMap k hk bits [], runWins_nil k hk, List.nil_append]

theorem segsAux_valid (bits : List Int) (hv : ∀ b ∈ bits, 0 ≤ b ∧ b ≤ 3) :
    ∀ cur : List Nat, segsAux cur bits = [cur ++ bits.map Int.toNat] := by
  induction bits with
  | nil => intro cur; simp [segsAux]
  | cons b bs ih =>
    intro cur
    obtain ⟨h0, h3⟩ := hv b (by simp)
    have hbe : ¬b = -1 := by omega
    rw [show segsAux cur (b :: bs) = segsAux (cur ++ [b.toNat]) bs by
      simp [segsAux, hbe]]
    rw [ih (fun c hc => hv c (by simp [hc])) (cur ++ [b.toNat])]
    simp

/-! ### Claim C6: index order matches the rolling code -/

theorem mem_ACGT_tobit : ∀ c ∈ (['A', 'C', 'G', 'T'] : List Char),
    0 ≤ tobit c ∧ tobit c ≤ 3 := by decide

/-- C6.  For every `k ≥ 1` and index `i < 4^k`, running `count_kmers` on
the single k-mer string `list_kmers('ACGT', k, 4^k)[i]` yields a vector
whose entry at index `i` is at least 1: the forward rolling code of that
string is exactly `i`. -/
theorem universe_matches_counter (k : Nat) (hk : 1 ≤ k) (i : Nat)
    (hi : i < 4 ^ k) :
    ∃ res,
      count_kmers (String.mk ((list_kmers "ACGT".data k (4 ^ k)).getD i []))
        (k : Int) (4 ^ k) tobit = some res ∧
      1 ≤ res.getD i 0 := by
  refine ⟨_, count_kmers_eq k hk _, ?_⟩
  have hw : (list_kmers "ACGT".data k (4 ^ k)).getD i [] =
      kmerDigits "ACGT".data k i := by
    have hlen : i < (list_kmers "ACGT".data k (4 ^ k)).length := by
      simpa [list_kmers] using hi
    rw [List.getD_eq_getElem _ _ hlen]
    unfold list_kmers
    rw [List.getElem_map, List.getElem_range, kmerLoop_eq_digits, List.append_nil]
  have hdata : (String.mk ((list_kmers "ACGT".data k (4 ^ k)).getD i [])).data =
      kmerDigits "ACGT".data k i := by rw [← hw]
  rw [hdata]
  have hvb : ∀ b ∈ (kmerDigits "ACGT".data k i).map tobit, 0 ≤ b ∧ b ≤ 3 := by
    intro b hb
    obtain ⟨c, hc, rfl⟩ := List.mem_map.mp hb
    exact mem_ACGT_tobit c (mem_kmerDigits k i c hc)
  have hwins : winsFrom k [] ((kmerDigits "ACGT".data k i).map tobit) =
      [((kmerDigits "ACGT".data k i).map tobit).map Int.toNat] := by
    rw [winsFrom_eq_flatMap k hk, segs,
      segsAux_valid ((kmerDigits "ACGT".data k i).map tobit) hvb [],
      List.nil_append, List.flatMap_cons, List.flatMap_nil, List.append_nil]
    unfold runWins
    have hlen : (((kmerDigits "ACGT".data k i).map tobit).map Int.toNat).length = k := by
      rw [List.length_map, List.length_map, length_kmerDigits]
    rw [hlen, show k + 1 - k = 1 by omega]
    rw [show List.range 1 = [0] from rfl, List.map_singleton, List.drop_zero]
    rw [List.take_of_length_le (by rw [hlen])]
  have henc : enc (((kmerDigits "ACGT".data k i).map tobit).map Int.toNat) = i := by
    rw [List.map_map]
    exact enc_tobit_kmerDigits k i hi
  have hiz : i < (List.replicate (4 ^ k) 0).length := by simpa using hi
  rw [hwins, getD_applyWins _ _ i hiz]
  have hz : (List.replicate (4 ^ k) 0).getD i 0 = 0 := by
    rw [List.getD_eq_getElem _ _ hiz]
    simp
  rw [hz]
  unfold tally
  rw [List.countP_singleton, List.countP_singleton]
  simp only [beq_iff_eq, henc]
  simp

theorem universe_matches_counter_w :
    ∃ res,
      count_kmers (String.mk ((list_kmers "ACGT".data 2 (4 ^ 2)).getD 9 []))
        ((2 : Nat) : Int) (4 ^ 2) tobit = some res ∧
      1 ≤ res.getD 9 0 :=
  universe_matches_counter 2 (by norm_num) 9 (by norm_num)

/-! ### Claim C7: no fail-fast validation of k -/

/-- C7 counterexample (k = 0): the header phase `list_kmers` succeeds —
no configuration check exists anywhere — and the error surfaces only
inside `count_kmers`, the per-sequence routine (`1 << -2` raises
`ValueError` there), i.e. during sequence processing, after the header
has already been produced. -/
theorem k_zero_no_fail_fast :
    list_kmers "ACGT".data 0 (4 ^ 0) = [[]] ∧
      count_kmers "ACGT" 0 (4 ^ 0) tobit = none := by
  constructor
  · rfl
  · decide

/-- C7 (amended).  The program performs no upfront validation of `k`:
for `k = 0`, header generation (`list_kmers`) succeeds and produces the
single `4^0` label, while `count_kmers` fails for every sequence (the
negative shift `1 << (k-1)*2` raises an unhandled `ValueError` when a
sequence is processed) — there is no clear configuration-error
diagnostic issued before sequence processing begins. -/
theorem k_zero_fails_mid_processing :
    list_kmers "ACGT".data 0 (4 ^ 0) = [[]] ∧
      ∀ s : String, count_kmers s 0 (4 ^ 0) tobit = none := by
  refine ⟨rfl, fun s => ?_⟩
  unfold count_kmers
  rw [if_pos (by norm_num)]

/-! ### Claim C10: lowercase bases are invalid at the core interface -/

/-- `count_kmers` fully unfolded; it depends on the sequence and the
character-code function only through the code list `seq.data.map tob`. -/
theorem count_kmers_def (seq : String) (k : Int) (n : Nat) (tob : Char → Int) :
    count_kmers seq k n tob =
      if (k - 1) * 2 < 0 then none
      else ((seq.data.map tob).foldlM
          (step k.toNat (((k - 1) * 2).toNat) ((1 <<< ((k - 1) * 2).toNat) - 1))
          ⟨0, 0, 0, List.replicate n 0⟩).map KState.res := rfl

theorem count_kmers_congr (s t : String) (k : Int) (n : Nat)
    (tob tob' : Char → Int) (h : s.data.map tob = t.data.map tob') :
    count_kmers s k n tob = count_kmers t k n tob' := by
  rw [count_kmers_def, count_kmers_def, h]

/-- C10.  At the core interface, lowercase bases a, c, g, t are invalid
characters (`'ACGT'.find` returns -1 for them), a lowercase base resets
the rolling state exactly like an N (for any `k`, any vector size and
any surrounding context the counts agree), and case-insensitivity of
the overall program exists only because the reader upper-cases each
residue line (`upperStr`) before the core is invoked. -/
theorem lowercase_invalid_at_core :
    (tobit 'a' = -1 ∧ tobit 'c' = -1 ∧ tobit 'g' = -1 ∧ tobit 't' = -1) ∧
    (∀ (k : Int) (n : Nat) (s1 s2 : String),
      count_kmers (s1 ++ String.singleton 'a' ++ s2) k n tobit =
        count_kmers (s1 ++ String.singleton 'N' ++ s2) k n tobit) ∧
    (∀ (k : Int) (n : Nat) (s : String),
      count_kmers (upperStr s) k n tobit =
        count_kmers s k n (fun c => tobit c.toUpper)) := by
  refine ⟨by decide, ?_, ?_⟩
  · intro k n s1 s2
    apply count_kmers_congr
    show (s1.data ++ ['a'] ++ s2.data).map tobit =
      (s1.data ++ ['N'] ++ s2.data).map tobit
    have ha : tobit 'a' = -1 := by decide
    have hN : tobit 'N' = -1 := by decide
    simp [ha, hN]
  · intro k n s
    apply count_kmers_congr
    show (s.data.map Char.toUpper).map tobit = _
    rw [List.map_map]
    rfl

/-! ### Claim C4: reverse-complement symmetry -/

theorem rcBits_append (xs : List Int) (b : Int) :
    rcBits (xs ++ [b]) = cbit b :: rcBits xs := by
  unfold rcBits
  simp

theorem segsAux_append_invalid (xs : List Int) :
    ∀ r : List Nat, segsAux r (xs ++ [-1]) = segsAux r xs ++ [[]] := by
  induction xs with
  | nil => intro r; simp [segsAux]
  | cons b bs ih =>
    intro r
    by_cases hbe : b = -1
    · subst hbe
      show segsAux r (-1 :: (bs ++ [-1])) = _
      rw [show segsAux r (-1 :: (bs ++ [-1])) = r :: segsAux [] (bs ++ [-1]) by
        simp [segsAux], ih []]
      simp [segsAux]
    · rw [show segsAux r ((b :: bs) ++ [-1]) = segsAux (r ++ [b.toNat]) (bs ++ [-1]) by
        simp [segsAux, hbe], ih (r ++ [b.toNat])]
      simp [segsAux, hbe]

theorem segsAux_append_valid (b : Int) (hb0 : 0 ≤ b) (xs : List Int) :
    ∀ r : List Nat, ∃ pre last,
      segsAux r xs = pre ++ [last] ∧
      segsAux r (xs ++ [b]) = pre ++ [last ++ [b.toNat]] := by
  have hbe : ¬b = -1 := by omega
  induction xs with
  | nil =>
    intro r
    refine ⟨[], r, by simp [segsAux], ?_⟩
    simp [segsAux, hbe]
  | cons x bs ih =>
    intro r
    by_cases hxe : x = -1
    · subst hxe
      obtain ⟨pre, last, h1, h2⟩ := ih []
      refine ⟨r :: pre, last, ?_, ?_⟩
      · simp [segsAux, h1]
      · show segsAux r (-1 :: (bs ++ [b])) = _
        simp [segsAux, h2]
    · obtain ⟨pre, last, h1, h2⟩ := ih (r ++ [x.toNat])
      refine ⟨pre, last, ?_, ?_⟩
      · simp [segsAux, hxe, h1]
      · show segsAux r ((x :: bs) ++ [b]) = _
        simp [segsAux, hxe, h2]

theorem concat_inj {α : Type _} {l1 l2 : List α} {a b : α}
    (h : l1 ++ [a] = l2 ++ [b]) : l1 = l2 ∧ a = b := by
  obtain ⟨h1, h2⟩ := List.append_inj' h rfl
  exact ⟨h1, by simpa using h2⟩

theorem segs_rcBits_aux (bits : List Int)
    (hb : ∀ b ∈ bits, b = -1 ∨ (0 ≤ b ∧ b ≤ 3)) :
    ∀ u : List Nat, ∃ (hd : List Nat) (tl : List (List Nat)),
      segs bits = tl.reverse ++ [hd] ∧
      segsAux u (rcBits bits) = (u ++ rc hd) :: tl.map rc := by
  induction bits using List.reverseRecOn with
  | nil =>
    intro u
    exact ⟨[], [], rfl, by simp [segsAux, rcBits, rc]⟩
  | append_singleton xs b ih =>
    intro u
    have hxs : ∀ c ∈ xs, c = -1 ∨ (0 ≤ c ∧ c ≤ 3) := fun c hc => hb c (by simp [hc])
    rcases hb b (by simp) with hbinv | ⟨hb0, hb3⟩
    · subst hbinv
      obtain ⟨hd, tl, h1, h2⟩ := ih hxs []
      refine ⟨[], hd :: tl, ?_, ?_⟩
      · rw [segs] at h1 ⊢
        rw [segsAux_append_invalid xs [], h1]
        simp
      · rw [rcBits_append]
        show segsAux u ((-1 : Int) :: rcBits xs) = _
        rw [show segsAux u ((-1 : Int) :: rcBits xs) = u :: segsAux [] (rcBits xs) by
          simp [segsAux], h2]
        simp [rc_nil]
    · have hbe : ¬b = -1 := by omega
      obtain ⟨hd, tl, h1, h2⟩ := ih hxs (u ++ [(3 - b).toNat])
      obtain ⟨pre, last, g1, g2⟩ := segsAux_append_valid b hb0 xs []
      rw [segs] at h1
      obtain ⟨hp, hl⟩ : pre = tl.reverse ∧ last = hd := concat_inj (g1.symm.trans h1)
      refine ⟨hd ++ [b.toNat], tl, ?_, ?_⟩
      · rw [segs, g2, hp, hl]
      · rw [rcBits_append]
        have hcb : cbit b = 3 - b := by simp [cbit, hbe]
        have hcbne : ¬cbit b = -1 := by rw [hcb]; omega
        rw [show segsAux u (cbit b :: rcBits xs) =
            segsAux (u ++ [(cbit b).toNat]) (rcBits xs) by simp [segsAux, hcbne]]
        rw [show (cbit b).toNat = (3 - b).toNat by rw [hcb], h2, rc_append_singleton]
        rw [show ((3 : Int) - b).toNat = 3 - b.toNat by omega]
        simp

theorem segs_rcBits (bits : List Int)
    (hb : ∀ b ∈ bits, b = -1 ∨ (0 ≤ b ∧ b ≤ 3)) :
    segs (rcBits bits) = ((segs bits).reverse).map rc := by
  obtain ⟨hd, tl, h1, h2⟩ := segs_rcBits_aux bits hb []
  rw [segs, h2, h1]
  simp

theorem reverse_range (n : Nat) :
    (List.range n).reverse = (List.range n).map (fun i => n - 1 - i) := by
  have h := List.reverse_range' 0 n
  rw [← List.range_eq_range'] at h
  simpa using h

theorem runWins_rc (k : Nat) (u : List Nat) :
    runWins k (rc u) = ((runWins k u).map rc).reverse := by
  unfold runWins
  rw [length_rc, List.map_map, ← List.map_reverse, reverse_range, List.map_map]
  apply List.map_congr_left
  intro i hi
  rw [List.mem_range] at hi
  simp only [Function.comp_apply]
  -- windows of the reverse complement are reverse complements of windows
  show ((rc u).drop i).take k =
    rc ((u.drop (u.length + 1 - k - 1 - i)).take k)
  have hk : k ≤ u.length := by omega
  unfold rc
  rw [← List.map_drop, ← List.map_take]
  congr 1
  rw [List.drop_reverse, List.take_reverse, List.drop_take, List.length_take]
  have e1 : min (u.length - i) u.length - k = u.length + 1 - k - 1 - i := by omega
  have e2 : u.length - i - (min (u.length - i) u.length - k) = k := by omega
  rw [e2, e1]

theorem winsFrom_rcBits_perm (k : Nat) (hk : 1 ≤ k) (bits : List Int)
    (hb : ∀ b ∈ bits, b = -1 ∨ (0 ≤ b ∧ b ≤ 3)) :
    (winsFrom k [] (rcBits bits)).Perm ((winsFrom k [] bits).map rc) := by
  rw [winsFrom_eq_flatMap k hk, winsFrom_eq_flatMap k hk,
    segs_rcBits bits hb, List.flatMap_map]
  have step1 : ((segs bits).reverse.flatMap fun u => runWins k (rc u)).Perm
      ((segs bits).reverse.flatMap fun u => (runWins k u).map rc) := by
    apply List.Perm.flatMap_left
    intro u _
    rw [runWins_rc k u]
    exact List.reverse_perm _
  refine step1.trans ?_
  rw [← List.map_flatMap]
  apply List.Perm.map
  exact List.Perm.flatMap_right (runWins k) (List.reverse_perm _)

theorem tally_perm (ws1 ws2 : List (List Nat)) (h : ws1.Perm ws2) (i : Nat) :
    tally ws1 i = tally ws2 i := by
  unfold tally
  rw [h.countP_eq, h.countP_eq]

theorem tally_map_rc (ws : List (List Nat)) (hws : ∀ w ∈ ws, ∀ a ∈ w, a ≤ 3)
    (i : Nat) : tally (ws.map rc) i = tally ws i := by
  unfold tally
  rw [List.countP_map, List.countP_map,
    List.countP_congr (show ∀ w ∈ ws, (((fun w => enc w == i) ∘ rc) w = true) ↔
      ((fun w => enc (rc w) == i) w = true) from fun w _ => by
        simp [Function.comp]),
    List.countP_congr (show ∀ w ∈ ws, (((fun w => enc (rc w) == i) ∘ rc) w = true) ↔
      ((fun w => enc w == i) w = true) from fun w hw => by
        simp only [Function.comp_apply, rc_rc w (hws w hw)])]
  omega

theorem tobit_compChar (c : Char) : tobit (compChar c) = cbit (tobit c) := by
  by_cases h1 : c = 'A'
  · subst h1; decide
  · by_cases h2 : c = 'T'
    · subst h2; decide
    · by_cases h3 : c = 'C'
      · subst h3; decide
      · by_cases h4 : c = 'G'
        · subst h4; decide
        · have hcc : compChar c = c := by simp [compChar, h1, h2, h3, h4]
          have htc : tobit c = -1 := by simp [tobit, h1, h2, h3, h4]
          rw [hcc, htc]
          decide

theorem revcomp_bits (s : String) :
    (revcomp s).data.map tobit = rcBits (s.data.map tobit) := by
  show ((s.data.map compChar).reverse).map tobit = _
  rw [List.map_reverse, List.map_map]
  unfold rcBits
  rw [List.map_map]
  congr 1
  apply List.map_congr_left
  intro c _
  simp only [Function.comp_apply]
  exact tobit_compChar c

/-- C4.  For every `k ≥ 1` and every sequence `S` (arbitrary
characters), the frequency vector computed from `S` equals the one
computed from the reverse complement of `S` (string reversed, bases
complemented A↔T, C↔G). -/
theorem count_kmers_revcomp (k : Nat) (hk : 1 ≤ k) (s : String) :
    count_kmers s (k : Int) (4 ^ k) tobit =
      count_kmers (revcomp s) (k : Int) (4 ^ k) tobit := by
  rw [count_kmers_eq k hk s, count_kmers_eq k hk (revcomp s), revcomp_bits s]
  congr 1
  apply List.ext_getElem
  · rw [length_applyWins, length_applyWins]
  · intro i h1 h2
    rw [getElem_applyWins_zero, getElem_applyWins_zero]
    have hperm := winsFrom_rcBits_perm k hk (s.data.map tobit)
      (tobit_bits_range s.data)
    rw [tally_perm _ _ hperm i,
      tally_map_rc _ (fun w hw => (winsFrom_shape k (s.data.map tobit) []
        (tobit_bits_range s.data) (by simp) w hw).2) i]

theorem count_kmers_revcomp_w :
    count_kmers "AACGTN" ((2 : Nat) : Int) (4 ^ 2) tobit =
      count_kmers (revcomp "AACGTN") ((2 : Nat) : Int) (4 ^ 2) tobit :=
  count_kmers_revcomp 2 (by norm_num) "AACGTN"
